import Mathlib

/-!
Verification of the UIGen core: the tool-invocation badge formatting
(from `src/components/chat/ToolInvocationBadge.tsx`), and the virtual
file system, path normalizer, serializer and tool layer described by
the specification (their implementation files, `src/lib/file-system.ts`
and `src/lib/tools/`, are not part of the provided sources, so those
components are modelled from the specification text).
-/

/-! ## Tool invocation badge (embedding of ToolInvocationBadge.tsx) -/

/-- The argument fields destructured by `formatToolMessage` in
`ToolInvocationBadge.tsx` (`command`, `path`, `new_path`); a missing
field is `none`, matching a JavaScript `undefined`. -/
structure BadgeArgs where
  command : Option String
  path : Option String
  new_path : Option String
deriving DecidableEq

/-- JavaScript template-literal interpolation of a possibly missing
string field: `undefined` prints as the string `"undefined"`. -/
def interpolate : Option String → String
  | some s => s
  | none => "undefined"

/-- Embedding of `formatToolMessage` from `ToolInvocationBadge.tsx`:
`args` absent returns the tool name; otherwise the `command` field is
dispatched per tool family, with unknown tools and unknown commands
falling back to the raw tool name. -/
def formatToolMessage (toolName : String) (args : Option BadgeArgs) : String :=
  match args with
  | none => toolName
  | some a =>
    if toolName = "str_replace_editor" then
      if a.command = some "create" then "Creating " ++ interpolate a.path
      else if a.command = some "str_replace" then "Editing " ++ interpolate a.path
      else if a.command = some "insert" then "Editing " ++ interpolate a.path
      else if a.command = some "view" then "Viewing " ++ interpolate a.path
      else toolName
    else if toolName = "file_manager" then
      if a.command = some "rename" then
        "Renaming " ++ interpolate a.path ++ " → " ++ interpolate a.new_path
      else if a.command = some "delete" then "Deleting " ++ interpolate a.path
      else toolName
    else toolName

/-- The observable render of `ToolInvocationBadge`: whether the
completed indicator (green dot) is shown, and the summary text. -/
structure BadgeView where
  completed : Bool
  message : String
deriving DecidableEq

/-- Embedding of the `ToolInvocationBadge` component body:
`message = formatToolMessage(toolName, args)` and
`isCompleted = (state === "result")`. -/
def toolInvocationBadge (toolName : String) (args : Option BadgeArgs)
    (state : Option String) : BadgeView :=
  BadgeView.mk (decide (state = some "result")) (formatToolMessage toolName args)

/-! ## Theorems about the badge -/

/-- Claim C2: the human-facing summary line is a function of
`(toolName, command, path, new_path)` only: two invocations that agree
on those fields but differ in state (pending, loading, result, error,
or state absent) display the identical summary text, and two argument
records agreeing on all three destructured fields yield the same text
under any two states. -/
theorem badge_message_state_independent :
    (∀ (t : String) (a : Option BadgeArgs) (s1 s2 : Option String),
      (toolInvocationBadge t a s1).message = (toolInvocationBadge t a s2).message)
    ∧ (∀ (t : String) (a b : BadgeArgs) (s1 s2 : Option String),
        a.command = b.command → a.path = b.path → a.new_path = b.new_path →
        (toolInvocationBadge t (some a) s1).message
          = (toolInvocationBadge t (some b) s2).message) := by
  constructor
  · intro t a s1 s2
    rfl
  · intro t a b s1 s2 h1 h2 h3
    have hab : a = b := by
      cases a
      cases b
      simp_all
    rw [hab]
    rfl

/-- Witness for C2 at a concrete pending/result pair of invocations. -/
theorem badge_message_state_independent_witness :
    (toolInvocationBadge "str_replace_editor"
      (some (BadgeArgs.mk (some "create") (some "/App.jsx") none)) (some "pending")).message
    = (toolInvocationBadge "str_replace_editor"
      (some (BadgeArgs.mk (some "create") (some "/App.jsx") none)) (some "result")).message :=
  badge_message_state_independent.2 "str_replace_editor"
    (BadgeArgs.mk (some "create") (some "/App.jsx") none)
    (BadgeArgs.mk (some "create") (some "/App.jsx") none)
    (some "pending") (some "result") rfl rfl rfl

/-- Claim C8: `formatToolMessage` is total and falls back to the raw
tool name: absent args, an unrecognized tool name, or an unrecognized
command for a recognized tool all yield exactly the tool name. -/
theorem formatToolMessage_fallback :
    (∀ t : String, formatToolMessage t none = t)
    ∧ (∀ (t : String) (a : BadgeArgs), t ≠ "str_replace_editor" → t ≠ "file_manager" →
        formatToolMessage t (some a) = t)
    ∧ (∀ a : BadgeArgs,
        a.command ≠ some "create" → a.command ≠ some "str_replace" →
        a.command ≠ some "insert" → a.command ≠ some "view" →
        formatToolMessage "str_replace_editor" (some a) = "str_replace_editor")
    ∧ (∀ a : BadgeArgs,
        a.command ≠ some "rename" → a.command ≠ some "delete" →
        formatToolMessage "file_manager" (some a) = "file_manager") := by
  refine ⟨fun t => rfl, ?_, ?_, ?_⟩
  · intro t a h1 h2
    simp [formatToolMessage, h1, h2]
  · intro a h1 h2 h3 h4
    simp [formatToolMessage, h1, h2, h3, h4]
  · intro a h1 h2
    simp [formatToolMessage, h1, h2]

/-- Witness for C8: a missing-args call, an unknown tool, and an
unknown command all display the raw tool name. -/
theorem formatToolMessage_fallback_witness :
    formatToolMessage "str_replace_editor" none = "str_replace_editor"
    ∧ formatToolMessage "unknown_tool" (some (BadgeArgs.mk (some "create") (some "/x") none))
        = "unknown_tool"
    ∧ formatToolMessage "str_replace_editor" (some (BadgeArgs.mk (some "unknown") (some "/t.js") none))
        = "str_replace_editor"
    ∧ formatToolMessage "file_manager" (some (BadgeArgs.mk (some "unknown") (some "/t.js") none))
        = "file_manager" :=
  ⟨formatToolMessage_fallback.1 "str_replace_editor",
   formatToolMessage_fallback.2.1 "unknown_tool"
     (BadgeArgs.mk (some "create") (some "/x") none) (by decide) (by decide),
   formatToolMessage_fallback.2.2.1 (BadgeArgs.mk (some "unknown") (some "/t.js") none)
     (by decide) (by decide) (by decide) (by decide),
   formatToolMessage_fallback.2.2.2 (BadgeArgs.mk (some "unknown") (some "/t.js") none)
     (by decide) (by decide)⟩

/-- Claim C9: the badge shows the completed indicator iff the state is
exactly `"result"`; for `"pending"`, `"loading"`, `"error"` and an
absent state it shows the in-progress spinner, so an errored call is
displayed as still in progress. -/
theorem badge_completed_iff_result (t : String) (a : Option BadgeArgs) (s : Option String) :
    ((toolInvocationBadge t a s).completed = true ↔ s = some "result")
    ∧ (toolInvocationBadge t a (some "pending")).completed = false
    ∧ (toolInvocationBadge t a (some "loading")).completed = false
    ∧ (toolInvocationBadge t a (some "error")).completed = false
    ∧ (toolInvocationBadge t a none).completed = false := by
  refine ⟨?_, rfl, rfl, rfl, rfl⟩
  simp [toolInvocationBadge]

/-- Claim C10: the four editor commands map to `Creating`, `Editing`,
`Editing`, `Viewing` prefixed summaries, so a `str_replace` and an
`insert` at the same path are displayed identically. -/
theorem editor_command_messages (p : String) :
    formatToolMessage "str_replace_editor" (some (BadgeArgs.mk (some "create") (some p) none))
      = "Creating " ++ p
    ∧ formatToolMessage "str_replace_editor" (some (BadgeArgs.mk (some "str_replace") (some p) none))
        = "Editing " ++ p
    ∧ formatToolMessage "str_replace_editor" (some (BadgeArgs.mk (some "insert") (some p) none))
        = "Editing " ++ p
    ∧ formatToolMessage "str_replace_editor" (some (BadgeArgs.mk (some "view") (some p) none))
        = "Viewing " ++ p
    ∧ formatToolMessage "str_replace_editor" (some (BadgeArgs.mk (some "str_replace") (some p) none))
        = formatToolMessage "str_replace_editor" (some (BadgeArgs.mk (some "insert") (some p) none)) := by
  refine ⟨?_, ?_, ?_, ?_, ?_⟩ <;> simp [formatToolMessage, interpolate]


/-! ## Path normalizer

Modelled from the spec: the Path Normalizer of `src/lib/file-system.ts`
is not among the provided sources. Per the specification it must prefix
with `/` if missing, collapse duplicate separators, remove `.` segments,
treat a `..` escaping above the root as an error (resolving it
conservatively otherwise), strip a trailing separator except for the
root, and fail with `InvalidPathError` on empty input. -/

namespace VFS

/-- Error raised by the path normalizer. -/
inductive PathError where
  | invalidPath
deriving DecidableEq

/-- Split a character list on the separator `/`; a list with no
separator yields a single segment, and separators at the ends yield
empty segments, as in string splitting. -/
def splitPath : List Char → List (List Char)
  | [] => [[]]
  | c :: rest =>
    if c = '/' then [] :: splitPath rest
    else (c :: (splitPath rest).headI) :: (splitPath rest).tail

/-- Join segments with the separator `/` between them. -/
def joinSegs : List (List Char) → List Char
  | [] => []
  | [s] => s
  | s :: r :: t => s ++ '/' :: joinSegs (r :: t)

/-- Resolve `..` segments against an accumulator of already accepted
segments (held in reverse); popping past the root yields `none`. -/
def resolveDots : List (List Char) → List (List Char) → Option (List (List Char))
  | [], acc => some acc.reverse
  | seg :: rest, acc =>
    if seg = ['.', '.'] then
      match acc with
      | [] => none
      | _ :: acc2 => resolveDots rest acc2
    else resolveDots rest (seg :: acc)

/-- Modelled from the spec: `normalize` canonicalizes a path (leading
`/`, duplicate separators collapsed, `.` removed, `..` resolved with
escape-above-root rejected, trailing separator stripped except for the
root) and fails with `InvalidPathError` on empty input. -/
def normalize (input : String) : Except PathError String :=
  if input.data = [] then Except.error PathError.invalidPath
  else
    if input.data.headI = '/' then
      match resolveDots ((splitPath input.data).filter
          (fun s => decide (s ≠ [] ∧ s ≠ ['.']))) [] with
      | none => Except.error PathError.invalidPath
      | some out => Except.ok (String.mk ('/' :: joinSegs out))
    else
      match resolveDots ((splitPath ('/' :: input.data)).filter
          (fun s => decide (s ≠ [] ∧ s ≠ ['.']))) [] with
      | none => Except.error PathError.invalidPath
      | some out => Except.ok (String.mk ('/' :: joinSegs out))

/-! ### Normalizer lemmas -/

theorem splitPath_ne_nil (l : List Char) : splitPath l ≠ [] := by
  cases l with
  | nil => simp [splitPath]
  | cons c rest =>
    by_cases h : c = '/' <;> simp [splitPath, h]

theorem splitPath_no_sep (l : List Char) : ∀ s ∈ splitPath l, '/' ∉ s := by
  induction l with
  | nil =>
    intro s hs
    simp [splitPath] at hs
    simp [hs]
  | cons c rest ih =>
    intro s hs
    by_cases h : c = '/'
    · simp [splitPath, h] at hs
      rcases hs with hs | hs
      · simp [hs]
      · exact ih s hs
    · simp [splitPath, h] at hs
      rcases hr : splitPath rest with _ | ⟨s0, t0⟩
      · exact absurd hr (splitPath_ne_nil rest)
      · rw [hr] at hs
        simp at hs
        rcases hs with hs | hs
        · subst hs
          intro hmem
          simp at hmem
          rcases hmem with hmem | hmem
          · exact h hmem.symm
          · exact ih s0 (by simp [hr]) hmem
        · exact ih s (by simp [hr, hs])

theorem splitPath_append_no_sep (s : List Char) (l : List Char) (h : '/' ∉ s) :
    splitPath (s ++ l) = (s ++ (splitPath l).headI) :: (splitPath l).tail := by
  induction s with
  | nil =>
    rcases hr : splitPath l with _ | ⟨s0, t0⟩
    · exact absurd hr (splitPath_ne_nil l)
    · simp [hr]
  | cons c s2 ih =>
    have hc : c ≠ '/' := fun hcc => h (by simp [hcc])
    have hs2 : '/' ∉ s2 := fun hmem => h (by simp [hmem])
    calc splitPath ((c :: s2) ++ l)
        = splitPath (c :: (s2 ++ l)) := by rw [List.cons_append]
      _ = (c :: (splitPath (s2 ++ l)).headI) :: (splitPath (s2 ++ l)).tail := by
            simp only [splitPath, if_neg hc]
      _ = (c :: ((s2 ++ (splitPath l).headI) :: (splitPath l).tail).headI)
            :: ((s2 ++ (splitPath l).headI) :: (splitPath l).tail).tail := by
            rw [ih hs2]
      _ = ((c :: s2) ++ (splitPath l).headI) :: (splitPath l).tail := by simp

theorem splitPath_joinSegs (segs : List (List Char)) (hne : segs ≠ [])
    (hsep : ∀ s ∈ segs, '/' ∉ s) : splitPath (joinSegs segs) = segs := by
  induction segs with
  | nil => exact absurd rfl hne
  | cons s t ih =>
    cases t with
    | nil =>
      have hj : joinSegs [s] = s ++ [] := by simp [joinSegs]
      rw [hj, splitPath_append_no_sep s [] (hsep s (by simp))]
      simp [splitPath]
    | cons r t2 =>
      have hj : joinSegs (s :: r :: t2) = s ++ '/' :: joinSegs (r :: t2) := by
        simp [joinSegs]
      rw [hj, splitPath_append_no_sep s _ (hsep s (by simp))]
      have hsp : splitPath ('/' :: joinSegs (r :: t2))
          = [] :: splitPath (joinSegs (r :: t2)) := by
        simp [splitPath]
      rw [hsp, ih (by simp) (fun x hx => hsep x (by simp [hx]))]
      simp

theorem resolveDots_no_dots (segs : List (List Char)) :
    ∀ acc, (∀ s ∈ segs, s ≠ ['.', '.']) →
      resolveDots segs acc = some (acc.reverse ++ segs) := by
  induction segs with
  | nil =>
    intro acc h
    simp [resolveDots]
  | cons seg rest ih =>
    intro acc h
    have hseg : seg ≠ ['.', '.'] := h seg (by simp)
    simp only [resolveDots, if_neg hseg]
    rw [ih (seg :: acc) (fun x hx => h x (by simp [hx]))]
    simp

theorem resolveDots_mem (segs : List (List Char)) :
    ∀ acc out, resolveDots segs acc = some out →
      ∀ x ∈ out, (x ∈ segs ∧ x ≠ ['.', '.']) ∨ x ∈ acc := by
  induction segs with
  | nil =>
    intro acc out h x hx
    simp [resolveDots] at h
    subst h
    right
    simpa using hx
  | cons seg rest ih =>
    intro acc out h x hx
    by_cases hseg : seg = ['.', '.']
    · simp only [resolveDots, if_pos hseg] at h
      cases acc with
      | nil => exact absurd h (by simp)
      | cons a acc2 =>
        rcases ih acc2 out h x hx with ⟨h1, h2⟩ | h1
        · exact Or.inl ⟨by simp [h1], h2⟩
        · exact Or.inr (by simp [h1])
    · simp only [resolveDots, if_neg hseg] at h
      rcases ih (seg :: acc) out h x hx with ⟨h1, h2⟩ | h1
      · exact Or.inl ⟨by simp [h1], h2⟩
      · rcases List.mem_cons.mp h1 with h2 | h2
        · subst h2
          exact Or.inl ⟨by simp, hseg⟩
        · exact Or.inr h2

end VFS

namespace VFS

/-- Every segment of a normalized output is nonempty, is not `.` or
`..`, and contains no separator. -/
theorem normalize_ok_shape (x y : String) (h : normalize x = Except.ok y) :
    ∃ out, y = String.mk ('/' :: joinSegs out)
      ∧ ∀ s ∈ out, s ≠ [] ∧ s ≠ ['.'] ∧ s ≠ ['.', '.'] ∧ '/' ∉ s := by
  unfold normalize at h
  by_cases h0 : x.data = []
  · rw [if_pos h0] at h
    exact absurd h (by simp)
  · rw [if_neg h0] at h
    by_cases h1 : x.data.headI = '/'
    · rw [if_pos h1] at h
      rcases hr : resolveDots ((splitPath x.data).filter
          (fun s => decide (s ≠ [] ∧ s ≠ ['.']))) [] with _ | out
      · rw [hr] at h
        exact absurd h (by simp)
      · rw [hr] at h
        simp only [Except.ok.injEq] at h
        refine ⟨out, h.symm, ?_⟩
        intro s hs
        rcases resolveDots_mem _ [] out hr s hs with ⟨hmem, hdd⟩ | habs
        · obtain ⟨hsp, hpr⟩ := List.mem_filter.mp hmem
          obtain ⟨hn1, hn2⟩ := of_decide_eq_true hpr
          exact ⟨hn1, hn2, hdd, splitPath_no_sep x.data s hsp⟩
        · exact absurd habs (by simp)
    · rw [if_neg h1] at h
      rcases hr : resolveDots ((splitPath ('/' :: x.data)).filter
          (fun s => decide (s ≠ [] ∧ s ≠ ['.']))) [] with _ | out
      · rw [hr] at h
        exact absurd h (by simp)
      · rw [hr] at h
        simp only [Except.ok.injEq] at h
        refine ⟨out, h.symm, ?_⟩
        intro s hs
        rcases resolveDots_mem _ [] out hr s hs with ⟨hmem, hdd⟩ | habs
        · obtain ⟨hsp, hpr⟩ := List.mem_filter.mp hmem
          obtain ⟨hn1, hn2⟩ := of_decide_eq_true hpr
          exact ⟨hn1, hn2, hdd, splitPath_no_sep ('/' :: x.data) s hsp⟩
        · exact absurd habs (by simp)

/-- A path built from canonical segments is a fixed point of
`normalize`. -/
theorem normalize_canonical (out : List (List Char))
    (hgood : ∀ s ∈ out, s ≠ [] ∧ s ≠ ['.'] ∧ s ≠ ['.', '.'] ∧ '/' ∉ s) :
    normalize (String.mk ('/' :: joinSegs out))
      = Except.ok (String.mk ('/' :: joinSegs out)) := by
  have hdata : (String.mk ('/' :: joinSegs out)).data = '/' :: joinSegs out := rfl
  unfold normalize
  rw [hdata]
  rw [if_neg (by simp)]
  rw [if_pos (by simp)]
  have hsp : splitPath ('/' :: joinSegs out) = [] :: splitPath (joinSegs out) := by
    simp [splitPath]
  rw [hsp]
  cases out with
  | nil =>
    simp [joinSegs, splitPath, resolveDots]
  | cons s t =>
    rw [splitPath_joinSegs (s :: t) (by simp) (fun x hx => (hgood x hx).2.2.2)]
    have hfil : ((([] : List Char) :: s :: t).filter
        (fun z => decide (z ≠ [] ∧ z ≠ ['.']))) = s :: t := by
      rw [List.filter_cons_of_neg (by simp)]
      rw [List.filter_eq_self.mpr]
      intro z hz
      exact decide_eq_true ⟨(hgood z hz).1, (hgood z hz).2.1⟩
    rw [hfil]
    rw [resolveDots_no_dots (s :: t) [] (fun x hx => (hgood x hx).2.2.1)]
    simp

/-- `normalize` maps every successful output to itself. -/
theorem normalize_idem (x y : String) (h : normalize x = Except.ok y) :
    normalize y = Except.ok y := by
  obtain ⟨out, hy, hgood⟩ := normalize_ok_shape x y h
  rw [hy]
  exact normalize_canonical out hgood

end VFS

/-- Claim C3: `normalize` is idempotent — running it on its own output
(or monadically composing it with itself) changes nothing — and the
spellings `/a/b/`, `/a//b` and `/a/./b` all normalize to `/a/b`, so the
same logical path written differently always yields the same key. -/
theorem normalize_idempotent_and_spellings :
    (∀ x : String, (VFS.normalize x).bind VFS.normalize = VFS.normalize x)
    ∧ VFS.normalize "/a/b/" = Except.ok "/a/b"
    ∧ VFS.normalize "/a//b" = Except.ok "/a/b"
    ∧ VFS.normalize "/a/./b" = Except.ok "/a/b" := by
  refine ⟨?_, rfl, rfl, rfl⟩
  intro x
  rcases h : VFS.normalize x with e | y
  · rfl
  · show VFS.normalize y = Except.ok y
    exact VFS.normalize_idem x y h

/-! ## Virtual File Tree

Modelled from the spec: `src/lib/file-system.ts` (class
`VirtualFileSystem`) is not among the provided sources. Per the
specification the tree is a mapping from normalized path to node, a
node is a file with text content or a directory, containment is
path-derived (a node is inside a directory solely because its path
extends the directory's path plus separator), and each operation
validates before mutating, so a failure leaves the tree unchanged. -/

namespace VFS

/-- A node of the virtual tree: a file with its content, or a
directory (whose children are path-derived, not stored). -/
inductive VNode where
  | file (content : String)
  | directory
deriving DecidableEq

/-- The tree as a path-keyed mapping, realized as an association list;
earlier entries shadow later ones on lookup. -/
abbrev FS := List (String × VNode)

/-- Error taxonomy of the tree layer, from the specification. -/
inductive FsError where
  | invalidPath
  | alreadyExists
  | notFound
  | typeMismatch
  | ambiguousMatch
  | notFoundInFile
  | outOfRange
deriving DecidableEq

/-- Path lookup: the single access discipline of the tree. -/
def lookupNode : FS → String → Option VNode
  | [], _ => none
  | (q, n) :: rest, p => if p = q then some n else lookupNode rest p

/-- The key set of the tree. -/
def keys (fs : FS) : List String := fs.map Prod.fst

/-- Write a file node at a path (overwriting any shadowed entry). -/
def setFile (fs : FS) (p c : String) : FS := (p, VNode.file c) :: fs

/-- Idempotent directory creation: a no-op when the path exists. -/
def addDir (fs : FS) (p : String) : FS :=
  if (lookupNode fs p).isSome then fs else (p, VNode.directory) :: fs

/-- Materialize each listed directory path, skipping existing ones. -/
def mkdirp (fs : FS) (ps : List String) : FS := ps.foldl addDir fs

/-- The nonempty segments of a path. -/
def pathSegs (p : String) : List (List Char) :=
  (splitPath p.data).filter (fun s => decide (s ≠ []))

/-- Render a list of segments as an absolute path string. -/
def segsToPath (segs : List (List Char)) : String :=
  String.mk ('/' :: joinSegs segs)

/-- The proper ancestor directories of a path (root excluded): for
`/a/b/c` these are `/a` and `/a/b`. -/
def parentPaths (p : String) : List String :=
  (List.range ((pathSegs p).length - 1)).map
    (fun i => segsToPath ((pathSegs p).take (i + 1)))

/-- Boolean character-list prefix test. -/
def isPrefixChars : List Char → List Char → Bool
  | [], _ => true
  | _ :: _, [] => false
  | a :: as, b :: bs => a == b && isPrefixChars as bs

/-- The characters every strict descendant's path starts with. -/
def childMarker (p : String) : List Char := p.data ++ ['/']

/-- Drop a path and, recursively, everything path-contained in it. -/
def removeSubtree (fs : FS) (p : String) : FS :=
  fs.filter (fun e => !(e.1 == p || isPrefixChars (childMarker p) e.1.data))

/-- Rewrite one key under a rename of `oldP` to `newP`: the node itself
moves, and every strict descendant keeps its suffix under the new
prefix. -/
def renameKey (oldP newP k : String) : String :=
  if k = oldP then newP
  else if isPrefixChars (childMarker oldP) k.data then
    String.mk (newP.data ++ k.data.drop oldP.data.length)
  else k

/-- Number of (possibly overlapping) occurrences of `pat` in `s`. -/
def countOcc (pat : List Char) : List Char → Nat
  | [] => if pat = [] then 1 else 0
  | c :: rest => (if isPrefixChars pat (c :: rest) then 1 else 0) + countOcc pat rest

/-- Replace the first occurrence of `pat` by `repl`. -/
def replaceOnce (pat repl : List Char) : List Char → List Char
  | [] => if pat = [] then repl else []
  | c :: rest =>
    if isPrefixChars pat (c :: rest) then repl ++ (c :: rest).drop pat.length
    else c :: replaceOnce pat repl rest

/-- Modelled from the spec: `createFile` fails with
`AlreadyExistsError` when a node of conflicting type occupies the path,
and otherwise writes the file after materializing missing ancestor
directories. -/
def createFile (fs : FS) (p content : String) : Option FsError × FS :=
  match lookupNode fs p with
  | some VNode.directory => (some FsError.alreadyExists, fs)
  | _ => (none, setFile (mkdirp fs (parentPaths p)) p content)

/-- Modelled from the spec: `updateFile` fails with `NotFoundError`
when nothing exists at the path and `TypeMismatchError` when the path
names a directory. -/
def updateFile (fs : FS) (p content : String) : Option FsError × FS :=
  match lookupNode fs p with
  | some (VNode.file _) => (none, setFile fs p content)
  | some VNode.directory => (some FsError.typeMismatch, fs)
  | none => (some FsError.notFound, fs)

/-- Modelled from the spec: deletion is recursive for directories and
fails with `NotFoundError` when the path does not exist. -/
def deleteNode (fs : FS) (p : String) : Option FsError × FS :=
  match lookupNode fs p with
  | none => (some FsError.notFound, fs)
  | some _ => (none, removeSubtree fs p)

/-- Modelled from the spec: `rename` fails when the old path does not
exist or the new path already exists (no silent overwrite), and
otherwise rewrites every key of the subtree as a single logical move. -/
def rename (fs : FS) (oldP newP : String) : Option FsError × FS :=
  match lookupNode fs oldP with
  | none => (some FsError.notFound, fs)
  | some _ =>
    match lookupNode fs newP with
    | some _ => (some FsError.alreadyExists, fs)
    | none => (none, fs.map (fun e => (renameKey oldP newP e.1, e.2)))

/-- Modelled from the spec: `viewFile` returns the content and fails
with `NotFoundError` when the path is absent or names a directory. -/
def viewFile (fs : FS) (p : String) : Except FsError String :=
  match lookupNode fs p with
  | some (VNode.file c) => Except.ok c
  | _ => Except.error FsError.notFound

/-- Modelled from the spec: `replaceInFile` fails with `NotFoundError`
when the path is absent, `AmbiguousMatchError` when the search string
occurs more than once, `NotFoundInFileError` when it occurs zero
times, and otherwise replaces the unique occurrence. -/
def replaceInFile (fs : FS) (p search replacement : String) : Option FsError × FS :=
  match lookupNode fs p with
  | some (VNode.file c) =>
    if 1 < countOcc search.data c.data then (some FsError.ambiguousMatch, fs)
    else if countOcc search.data c.data = 0 then (some FsError.notFoundInFile, fs)
    else (none, setFile fs p (String.mk (replaceOnce search.data replacement.data c.data)))
  | _ => (some FsError.notFound, fs)

/-- Modelled from the spec: `insertInFile` fails with `NotFoundError`
when the path is absent and `OutOfRangeError` when the line index
exceeds the file length; otherwise the text is inserted after the
given line. -/
def insertInFile (fs : FS) (p : String) (afterLine : Nat) (text : String) :
    Option FsError × FS :=
  match lookupNode fs p with
  | some (VNode.file c) =>
    if (c.splitOn "\n").length < afterLine then (some FsError.outOfRange, fs)
    else (none, setFile fs p (String.intercalate "\n"
      ((c.splitOn "\n").take afterLine ++ [text] ++ (c.splitOn "\n").drop afterLine)))
  | _ => (some FsError.notFound, fs)

/-- The mutating operations of the tree layer. -/
inductive TreeOp where
  | createOp (path content : String)
  | updateOp (path content : String)
  | deleteOp (path : String)
  | renameOp (oldPath newPath : String)
  | replaceOp (path search replacement : String)
  | insertOp (path : String) (afterLine : Nat) (text : String)
deriving DecidableEq

/-- Apply one mutating operation, returning the error (if any) and the
resulting tree. -/
def applyOp (fs : FS) : TreeOp → Option FsError × FS
  | TreeOp.createOp p c => createFile fs p c
  | TreeOp.updateOp p c => updateFile fs p c
  | TreeOp.deleteOp p => deleteNode fs p
  | TreeOp.renameOp a b => rename fs a b
  | TreeOp.replaceOp p s r => replaceInFile fs p s r
  | TreeOp.insertOp p i t => insertInFile fs p i t

end VFS

namespace VFS

/-- A successful prefix test decomposes the list. -/
theorem isPrefixChars_append (pat : List Char) :
    ∀ s, isPrefixChars pat s = true → s = pat ++ s.drop pat.length := by
  induction pat with
  | nil =>
    intro s h
    simp
  | cons a as ih =>
    intro s h
    cases s with
    | nil => simp [isPrefixChars] at h
    | cons b bs =>
      simp only [isPrefixChars, Bool.and_eq_true, beq_iff_eq] at h
      obtain ⟨hab, hrest⟩ := h
      subst hab
      have h2 := ih bs hrest
      simp only [List.length_cons, List.drop_succ_cons, List.cons_append]
      rw [← h2]

/-- A prefix is no longer than the list it starts. -/
theorem isPrefixChars_length (pat s : List Char) (h : isPrefixChars pat s = true) :
    pat.length ≤ s.length := by
  have h2 := isPrefixChars_append pat s h
  rw [h2]
  simp

/-- When the pattern occurs, `replaceOnce` rewrites exactly the first
occurrence and keeps the surrounding text. -/
theorem replaceOnce_spec (pat repl : List Char) :
    ∀ s, 0 < countOcc pat s →
      ∃ pre post, s = pre ++ pat ++ post
        ∧ replaceOnce pat repl s = pre ++ repl ++ post := by
  intro s
  induction s with
  | nil =>
    intro h
    simp only [countOcc] at h
    by_cases hp : pat = []
    · exact ⟨[], [], by simp [hp], by simp [replaceOnce, hp]⟩
    · rw [if_neg hp] at h
      exact absurd h (by simp)
  | cons c rest ih =>
    intro h
    by_cases hpre : isPrefixChars pat (c :: rest) = true
    · refine ⟨[], (c :: rest).drop pat.length, ?_, ?_⟩
      · simpa using isPrefixChars_append pat (c :: rest) hpre
      · simp [replaceOnce, hpre]
    · rw [Bool.not_eq_true] at hpre
      have hc : 0 < countOcc pat rest := by
        simp only [countOcc, hpre] at h
        simpa using h
      obtain ⟨pre, post, h1, h2⟩ := ih hc
      refine ⟨c :: pre, post, by simp [h1], ?_⟩
      simp [replaceOnce, hpre, h2]

/-- Every failing mutation returns the tree it was given: errors are
raised by validation, before any write. -/
theorem applyOp_error_eq (fs : FS) (op : TreeOp) (e : FsError)
    (h : (applyOp fs op).1 = some e) : (applyOp fs op).2 = fs := by
  cases op with
  | createOp p c =>
    simp only [applyOp, createFile] at h ⊢
    rcases hl : lookupNode fs p with _ | n
    · simp only [hl] at h
      simp at h
    · cases n with
      | file s =>
        simp only [hl] at h
        simp at h
      | directory =>
        simp only [hl]
  | updateOp p c =>
    simp only [applyOp, updateFile] at h ⊢
    rcases hl : lookupNode fs p with _ | n
    · simp only [hl]
    · cases n with
      | file s =>
        simp only [hl] at h
        simp at h
      | directory =>
        simp only [hl]
  | deleteOp p =>
    simp only [applyOp, deleteNode] at h ⊢
    rcases hl : lookupNode fs p with _ | n
    · simp only [hl]
    · simp only [hl] at h
      simp at h
  | renameOp a b =>
    simp only [applyOp, rename] at h ⊢
    rcases hl : lookupNode fs a with _ | n
    · simp only [hl]
    · rcases hl2 : lookupNode fs b with _ | m
      · simp only [hl, hl2] at h
        simp at h
      · simp only [hl, hl2]
  | replaceOp p s r =>
    simp only [applyOp, replaceInFile] at h ⊢
    rcases hl : lookupNode fs p with _ | n
    · simp only [hl]
    · cases n with
      | directory => simp only [hl]
      | file c0 =>
        simp only [hl] at h ⊢
        by_cases h1 : 1 < countOcc s.data c0.data
        · rw [if_pos h1]
        · rw [if_neg h1] at h ⊢
          by_cases h2 : countOcc s.data c0.data = 0
          · rw [if_pos h2]
          · rw [if_neg h2] at h
            simp at h
  | insertOp p i t =>
    simp only [applyOp, insertInFile] at h ⊢
    rcases hl : lookupNode fs p with _ | n
    · simp only [hl]
    · cases n with
      | directory => simp only [hl]
      | file c0 =>
        simp only [hl] at h ⊢
        by_cases h1 : (c0.splitOn "\n").length < i
        · rw [if_pos h1]
        · rw [if_neg h1] at h
          simp at h

end VFS

/-- Claim C5: on an existing file, `replaceInFile` fails with
`AmbiguousMatchError` when the search string occurs more than once
(returning the tree, and hence the file content, unchanged), fails
with `NotFoundInFileError` when it occurs zero times, and otherwise
replaces the unique occurrence in place. -/
theorem replaceInFile_match_semantics (fs : VFS.FS) (p search repl c : String)
    (hf : VFS.lookupNode fs p = some (VFS.VNode.file c)) :
    (1 < VFS.countOcc search.data c.data →
      VFS.replaceInFile fs p search repl = (some VFS.FsError.ambiguousMatch, fs))
    ∧ (VFS.countOcc search.data c.data = 0 →
      VFS.replaceInFile fs p search repl = (some VFS.FsError.notFoundInFile, fs))
    ∧ (VFS.countOcc search.data c.data = 1 →
      VFS.replaceInFile fs p search repl
        = (none, VFS.setFile fs p (String.mk (VFS.replaceOnce search.data repl.data c.data)))
      ∧ ∃ pre post, c.data = pre ++ search.data ++ post
          ∧ VFS.replaceOnce search.data repl.data c.data = pre ++ repl.data ++ post) := by
  refine ⟨?_, ?_, ?_⟩
  · intro h1
    simp only [VFS.replaceInFile, hf]
    rw [if_pos h1]
  · intro h0
    simp only [VFS.replaceInFile, hf]
    rw [if_neg (by omega), if_pos h0]
  · intro h1
    constructor
    · simp only [VFS.replaceInFile, hf]
      rw [if_neg (by omega), if_neg (by omega)]
    · exact VFS.replaceOnce_spec search.data repl.data c.data (by omega)

/-- Witness for C5: a doubled search string is rejected as ambiguous
and the tree is returned unchanged. -/
theorem replaceInFile_match_semantics_witness :
    VFS.replaceInFile [("/", VFS.VNode.directory), ("/f.txt", VFS.VNode.file "abcXabc")]
      "/f.txt" "abc" "z"
      = (some VFS.FsError.ambiguousMatch,
        [("/", VFS.VNode.directory), ("/f.txt", VFS.VNode.file "abcXabc")]) :=
  (replaceInFile_match_semantics
    [("/", VFS.VNode.directory), ("/f.txt", VFS.VNode.file "abcXabc")]
    "/f.txt" "abc" "z" "abcXabc" (by decide)).1 (by decide)

/-- Claim C6: every mutating tree operation is atomic — on any error
the resulting tree is the tree the operation was given — and deleting
a non-existent path fails with a not-found error while leaving the
tree unchanged. -/
theorem tree_mutations_atomic :
    (∀ (fs : VFS.FS) (op : VFS.TreeOp) (e : VFS.FsError),
      (VFS.applyOp fs op).1 = some e → (VFS.applyOp fs op).2 = fs)
    ∧ (∀ (fs : VFS.FS) (p : String), VFS.lookupNode fs p = none →
        VFS.applyOp fs (VFS.TreeOp.deleteOp p) = (some VFS.FsError.notFound, fs)) := by
  constructor
  · exact fun fs op e h => VFS.applyOp_error_eq fs op e h
  · intro fs p h
    simp only [VFS.applyOp, VFS.deleteNode, h]

/-- Witness for C6: a delete of a missing path on a concrete tree
fails with not-found and returns the identical tree. -/
theorem tree_mutations_atomic_witness :
    VFS.applyOp [("/", VFS.VNode.directory)] (VFS.TreeOp.deleteOp "/missing.js")
      = (some VFS.FsError.notFound, [("/", VFS.VNode.directory)]) :=
  tree_mutations_atomic.2 [("/", VFS.VNode.directory)] "/missing.js" (by decide)

/-! ## Tool layer

Modelled from the spec: `src/lib/tools/str-replace.ts` and
`src/lib/tools/file-manager.ts` are not among the provided sources.
Per the specification the two tool families validate their arguments
before touching the tree (missing required fields fail with
`InvalidArgumentsError`), translate the call into a tree operation,
and convert any tree-layer error into a returned
`success = false` result with a human-readable message, never
propagating a raw error to the caller. -/

namespace VFS

/-- The argument record of the external tool-call interface: every
field optional, mirroring the wire shape. -/
structure ToolArgs where
  command : Option String
  path : Option String
  new_path : Option String
  old_str : Option String
  new_str : Option String
  insert_line : Option Nat
  file_text : Option String
deriving DecidableEq

/-- A structured tool call from the AI-orchestration layer. -/
structure ToolCall where
  toolName : String
  args : ToolArgs
deriving DecidableEq

/-- The terminal payload every tool call returns. -/
structure ToolResult where
  success : Bool
  message : String
deriving DecidableEq

/-- A validated tool operation: a tree mutation or a read. -/
inductive ToolOp where
  | mutOp (op : TreeOp)
  | viewOp (path : String)
deriving DecidableEq

/-- Message used when argument validation fails before any tree
access. -/
def invalidArgsMessage : String :=
  "InvalidArgumentsError: missing or invalid tool arguments"

/-- Human-readable description of each tree-layer error. -/
def describeError : FsError → String
  | FsError.invalidPath => "InvalidPathError: invalid path"
  | FsError.alreadyExists => "AlreadyExistsError: destination already exists"
  | FsError.notFound => "NotFoundError: file or directory not found"
  | FsError.typeMismatch => "TypeMismatchError: path names a directory"
  | FsError.ambiguousMatch => "AmbiguousMatchError: search string occurs more than once"
  | FsError.notFoundInFile => "NotFoundInFileError: search string not found in file"
  | FsError.outOfRange => "OutOfRangeError: line index exceeds file length"

/-- Summary returned on a successful mutation. -/
def successMessage : TreeOp → String
  | TreeOp.createOp p _ => "Created " ++ p
  | TreeOp.updateOp p _ => "Updated " ++ p
  | TreeOp.deleteOp p => "Deleted " ++ p
  | TreeOp.renameOp a b => "Renamed " ++ a ++ " to " ++ b
  | TreeOp.replaceOp p _ _ => "Replaced text in " ++ p
  | TreeOp.insertOp p _ _ => "Inserted text in " ++ p

/-- Modelled from the spec: validation of a tool call into a tree
operation, before any tree access; unknown tools, unknown commands and
missing required fields are rejected. -/
def validate (c : ToolCall) : Except String ToolOp :=
  if c.toolName = "str_replace_editor" then
    if c.args.command = some "create" then
      match c.args.path, c.args.file_text with
      | some p, some t => Except.ok (ToolOp.mutOp (TreeOp.createOp p t))
      | _, _ => Except.error invalidArgsMessage
    else if c.args.command = some "str_replace" then
      match c.args.path, c.args.old_str, c.args.new_str with
      | some p, some o, some n => Except.ok (ToolOp.mutOp (TreeOp.replaceOp p o n))
      | _, _, _ => Except.error invalidArgsMessage
    else if c.args.command = some "insert" then
      match c.args.path, c.args.insert_line, c.args.new_str with
      | some p, some i, some n => Except.ok (ToolOp.mutOp (TreeOp.insertOp p i n))
      | _, _, _ => Except.error invalidArgsMessage
    else if c.args.command = some "view" then
      match c.args.path with
      | some p => Except.ok (ToolOp.viewOp p)
      | none => Except.error invalidArgsMessage
    else Except.error invalidArgsMessage
  else if c.toolName = "file_manager" then
    if c.args.command = some "rename" then
      match c.args.path, c.args.new_path with
      | some p, some n => Except.ok (ToolOp.mutOp (TreeOp.renameOp p n))
      | _, _ => Except.error invalidArgsMessage
    else if c.args.command = some "delete" then
      match c.args.path with
      | some p => Except.ok (ToolOp.mutOp (TreeOp.deleteOp p))
      | none => Except.error invalidArgsMessage
    else Except.error invalidArgsMessage
  else Except.error invalidArgsMessage

/-- The tree-layer error (if any) a validated operation would raise. -/
def toolOpErr (fs : FS) : ToolOp → Option FsError
  | ToolOp.mutOp m => (applyOp fs m).1
  | ToolOp.viewOp p =>
    match viewFile fs p with
    | Except.error e => some e
    | Except.ok _ => none

/-- Modelled from the spec: run one tool call against the tree. Every
outcome is a returned `ToolResult`; tree errors are caught and
reported as `success = false` with a descriptive message. -/
def runTool (fs : FS) (call : ToolCall) : ToolResult × FS :=
  match validate call with
  | Except.error msg => (ToolResult.mk false msg, fs)
  | Except.ok (ToolOp.viewOp p) =>
    match viewFile fs p with
    | Except.ok content => (ToolResult.mk true content, fs)
    | Except.error e => (ToolResult.mk false (describeError e), fs)
  | Except.ok (ToolOp.mutOp m) =>
    match applyOp fs m with
    | (some e, _) => (ToolResult.mk false (describeError e), fs)
    | (none, fs2) => (ToolResult.mk true (successMessage m), fs2)

end VFS

/-- Claim C7: any error raised by the tree layer during a tool call is
caught inside the tool layer and converted into a returned
`success = false` result whose message describes the error; the tree
is left unchanged, and no tree error propagates to the caller. -/
theorem toolLayer_catches_tree_errors (fs : VFS.FS) (call : VFS.ToolCall)
    (op : VFS.ToolOp) (e : VFS.FsError)
    (hv : VFS.validate call = Except.ok op) (he : VFS.toolOpErr fs op = some e) :
    VFS.runTool fs call = (VFS.ToolResult.mk false (VFS.describeError e), fs)
    ∧ VFS.describeError e ≠ "" := by
  constructor
  · simp only [VFS.runTool, hv]
    cases op with
    | viewOp p =>
      simp only [VFS.toolOpErr] at he
      rcases hview : VFS.viewFile fs p with e2 | content
      · simp only [hview] at he
        simp only [hview]
        simp at he
        rw [he]
      · simp only [hview] at he
        simp at he
    | mutOp m =>
      simp only [VFS.toolOpErr] at he
      have hfs : (VFS.applyOp fs m).2 = fs := VFS.applyOp_error_eq fs m e he
      have hpair : VFS.applyOp fs m = (some e, fs) := Prod.ext he hfs
      simp only [hpair]
  · cases e <;> decide

/-- Witness for C7: a delete of a missing path through the
`file_manager` tool yields a failed result carrying the not-found
description, with the tree unchanged. -/
theorem toolLayer_catches_tree_errors_witness :
    VFS.runTool [("/", VFS.VNode.directory)]
      (VFS.ToolCall.mk "file_manager"
        (VFS.ToolArgs.mk (some "delete") (some "/missing.js") none none none none none))
      = (VFS.ToolResult.mk false (VFS.describeError VFS.FsError.notFound),
        [("/", VFS.VNode.directory)])
    ∧ VFS.describeError VFS.FsError.notFound ≠ "" :=
  toolLayer_catches_tree_errors [("/", VFS.VNode.directory)]
    (VFS.ToolCall.mk "file_manager"
      (VFS.ToolArgs.mk (some "delete") (some "/missing.js") none none none none none))
    (VFS.ToolOp.mutOp (VFS.TreeOp.deleteOp "/missing.js")) VFS.FsError.notFound
    rfl (by decide)

namespace VFS

/-- Lookup of a key no mapped entry produces is empty. -/
theorem lookupNode_map_ne (fs : FS) (g : String → String) (p : String)
    (h : ∀ e ∈ fs, g e.1 ≠ p) :
    lookupNode (fs.map (fun e => (g e.1, e.2))) p = none := by
  induction fs with
  | nil => rfl
  | cons e t ih =>
    simp only [List.map_cons, lookupNode]
    rw [if_neg (fun hp => h e (by simp) hp.symm)]
    exact ih (fun x hx => h x (by simp [hx]))

/-- Renaming `/old.js` to `/new.js` maps no key to `/old.js`. -/
theorem renameKey_old_ne (k : String) :
    renameKey "/old.js" "/new.js" k ≠ "/old.js" := by
  unfold renameKey
  by_cases hk : k = "/old.js"
  · rw [if_pos hk]
    decide
  · rw [if_neg hk]
    by_cases hpre : isPrefixChars (childMarker "/old.js") k.data = true
    · rw [if_pos hpre]
      intro hEq
      have h3 : (childMarker "/old.js").length = 8 := by decide
      have hlen : (childMarker "/old.js").length ≤ k.data.length :=
        isPrefixChars_length _ _ hpre
      rw [h3] at hlen
      have hcongr : ("/new.js".data ++ k.data.drop ("/old.js" : String).data.length).length
          = ("/old.js" : String).data.length :=
        congrArg (fun s => s.data.length) hEq
      rw [List.length_append, List.length_drop] at hcongr
      have h1 : ("/new.js" : String).data.length = 7 := by decide
      have h2 : ("/old.js" : String).data.length = 7 := by decide
      rw [h1, h2] at hcongr
      omega
    · rw [if_neg hpre]
      exact hk

end VFS

/-- Claim C1: a `file_manager` tool call with command `rename` from
`/old.js` to `/new.js`, on a tree holding the file `/old.js` (and with
`/new.js` free, as the spec's no-silent-overwrite rule requires for
the rename to apply), displays the summary exactly
`Renaming /old.js → /new.js`, succeeds, and a subsequent view of
`/old.js` fails with a not-found error. -/
theorem fileManager_rename_scenario (fs : VFS.FS) (c : String)
    (hold : VFS.lookupNode fs "/old.js" = some (VFS.VNode.file c))
    (hnew : VFS.lookupNode fs "/new.js" = none) :
    formatToolMessage "file_manager"
      (some (BadgeArgs.mk (some "rename") (some "/old.js") (some "/new.js")))
      = "Renaming /old.js → /new.js"
    ∧ (VFS.runTool fs (VFS.ToolCall.mk "file_manager"
        (VFS.ToolArgs.mk (some "rename") (some "/old.js") (some "/new.js")
          none none none none))).1.success = true
    ∧ VFS.viewFile (VFS.runTool fs (VFS.ToolCall.mk "file_manager"
        (VFS.ToolArgs.mk (some "rename") (some "/old.js") (some "/new.js")
          none none none none))).2 "/old.js"
      = Except.error VFS.FsError.notFound := by
  have hval : VFS.validate (VFS.ToolCall.mk "file_manager"
      (VFS.ToolArgs.mk (some "rename") (some "/old.js") (some "/new.js")
        none none none none))
      = Except.ok (VFS.ToolOp.mutOp (VFS.TreeOp.renameOp "/old.js" "/new.js")) := rfl
  have happ : VFS.applyOp fs (VFS.TreeOp.renameOp "/old.js" "/new.js")
      = (none, fs.map (fun e => (VFS.renameKey "/old.js" "/new.js" e.1, e.2))) := by
    simp only [VFS.applyOp, VFS.rename, hold, hnew]
  refine ⟨rfl, ?_, ?_⟩
  · simp only [VFS.runTool, hval, happ]
  · simp only [VFS.runTool, hval, happ]
    have hnone : VFS.lookupNode
        (fs.map (fun e => (VFS.renameKey "/old.js" "/new.js" e.1, e.2))) "/old.js" = none :=
      VFS.lookupNode_map_ne fs _ "/old.js" (fun e _ => VFS.renameKey_old_ne e.1)
    simp only [VFS.viewFile, hnone]

/-- Witness for C1 on a concrete two-node tree holding `/old.js`. -/
theorem fileManager_rename_scenario_witness :
    formatToolMessage "file_manager"
      (some (BadgeArgs.mk (some "rename") (some "/old.js") (some "/new.js")))
      = "Renaming /old.js → /new.js"
    ∧ (VFS.runTool [("/", VFS.VNode.directory), ("/old.js", VFS.VNode.file "let x = 1")]
        (VFS.ToolCall.mk "file_manager"
          (VFS.ToolArgs.mk (some "rename") (some "/old.js") (some "/new.js")
            none none none none))).1.success = true
    ∧ VFS.viewFile (VFS.runTool [("/", VFS.VNode.directory), ("/old.js", VFS.VNode.file "let x = 1")]
        (VFS.ToolCall.mk "file_manager"
          (VFS.ToolArgs.mk (some "rename") (some "/old.js") (some "/new.js")
            none none none none))).2 "/old.js"
      = Except.error VFS.FsError.notFound :=
  fileManager_rename_scenario
    [("/", VFS.VNode.directory), ("/old.js", VFS.VNode.file "let x = 1")]
    "let x = 1" (by decide) (by decide)

/-! ## Serializer

Modelled from the spec: `serialize` flattens every node to a
`path to (type, content?)` record; `deserialize` rebuilds a tree from a
snapshot by creating the directories implied by path prefixes and the
files with their stored content, directory creation being idempotent
and path-derived. -/

namespace VFS

/-- The wire form of one node: a type tag and optional content. -/
structure SerNode where
  type : String
  content : Option String
deriving DecidableEq

/-- Flatten one node to its wire form. -/
def serializeNode : VNode → SerNode
  | VNode.file c => SerNode.mk "file" (some c)
  | VNode.directory => SerNode.mk "directory" none

/-- Modelled from the spec: flatten the whole tree to a snapshot. -/
def serialize (fs : FS) : List (String × SerNode) :=
  fs.map (fun e => (e.1, serializeNode e.2))

/-- Replay one snapshot entry: a file entry materializes its missing
ancestors then writes the file; a directory entry materializes itself
and its missing ancestors. -/
def deserializeStep (fs : FS) (e : String × SerNode) : FS :=
  if e.2.type = "file" then
    setFile (mkdirp fs (parentPaths e.1)) e.1 (e.2.content.getD "")
  else mkdirp fs (parentPaths e.1 ++ [e.1])

/-- Modelled from the spec: rebuild a tree from a snapshot, starting
from a tree containing only the root directory. -/
def deserialize (snapshot : List (String × SerNode)) : FS :=
  snapshot.foldl deserializeStep [("/", VNode.directory)]

/-- Replay of one tree entry, the composition of `serializeNode` and
`deserializeStep`. -/
def nodeStep (fs : FS) (e : String × VNode) : FS :=
  match e.2 with
  | VNode.file c => setFile (mkdirp fs (parentPaths e.1)) e.1 c
  | VNode.directory => mkdirp fs (parentPaths e.1 ++ [e.1])

/-- A well-formed tree: the root directory is present, keys are not
duplicated, and every ancestor directory implied by a key's path is
itself present as a directory. -/
def wellFormed (fs : FS) : Prop :=
  lookupNode fs "/" = some VNode.directory
  ∧ (keys fs).Nodup
  ∧ ∀ e ∈ fs, ∀ q ∈ parentPaths e.1, lookupNode fs q = some VNode.directory

instance wellFormedDecidable (fs : FS) : Decidable (wellFormed fs) := by
  unfold wellFormed
  infer_instance

/-! ### Lookup lemmas -/

theorem lookupNode_mem (fs : FS) (p : String) (n : VNode)
    (h : lookupNode fs p = some n) : (p, n) ∈ fs := by
  induction fs with
  | nil => simp [lookupNode] at h
  | cons e t ih =>
    rcases e with ⟨q, m⟩
    by_cases hpq : p = q
    · simp only [lookupNode, if_pos hpq] at h
      rw [hpq, ← Option.some.inj h]
      exact List.mem_cons_self _ _
    · simp only [lookupNode, if_neg hpq] at h
      exact List.mem_cons_of_mem _ (ih h)

theorem lookupNode_eq_none_iff (fs : FS) (p : String) :
    lookupNode fs p = none ↔ p ∉ keys fs := by
  induction fs with
  | nil => simp [lookupNode, keys]
  | cons e t ih =>
    rcases e with ⟨q, m⟩
    by_cases hpq : p = q
    · simp [lookupNode, if_pos hpq, keys, hpq]
    · simp [lookupNode, if_neg hpq, keys, hpq] at ih ⊢
      exact ih

theorem mem_lookupNode (fs : FS) (p : String) (n : VNode)
    (hnd : (keys fs).Nodup) (h : (p, n) ∈ fs) : lookupNode fs p = some n := by
  induction fs with
  | nil => simp at h
  | cons e t ih =>
    rcases e with ⟨q, m⟩
    simp only [keys, List.map_cons, List.nodup_cons] at hnd
    rcases List.mem_cons.mp h with h1 | h1
    · rw [Prod.mk.injEq] at h1
      simp only [lookupNode, if_pos h1.1]
      rw [h1.2]
    · have hpq : p ≠ q := by
        intro hpq
        exact hnd.1 (hpq ▸ (List.mem_map.mpr ⟨(p, n), h1, rfl⟩))
      simp only [lookupNode, if_neg hpq]
      exact ih hnd.2 h1

theorem lookupNode_append (l1 l2 : FS) (p : String) :
    lookupNode (l1 ++ l2) p
      = match lookupNode l1 p with
        | some n => some n
        | none => lookupNode l2 p := by
  induction l1 with
  | nil => simp [lookupNode]
  | cons e t ih =>
    rcases e with ⟨q, m⟩
    by_cases hpq : p = q
    · simp [lookupNode, if_pos hpq]
    · simp only [List.cons_append, lookupNode, if_neg hpq]
      exact ih

theorem addDir_lookup (fs : FS) (q p : String) :
    lookupNode (addDir fs q) p
      = if lookupNode fs p = none ∧ p = q then some VNode.directory
        else lookupNode fs p := by
  unfold addDir
  by_cases hq : (lookupNode fs q).isSome
  · rw [if_pos hq]
    by_cases hc : lookupNode fs p = none ∧ p = q
    · exfalso
      rw [hc.2] at hc
      rw [hc.1] at hq
      simp at hq
    · rw [if_neg hc]
  · rw [if_neg hq]
    by_cases hpq : p = q
    · simp only [lookupNode, if_pos hpq]
      rw [Option.not_isSome_iff_eq_none] at hq
      rw [hpq]
      rw [if_pos ⟨hq, rfl⟩]
    · simp only [lookupNode, if_neg hpq]
      rw [if_neg (fun hc => hpq hc.2)]

theorem mkdirp_lookup (ps : List String) :
    ∀ (fs : FS) (p : String),
      lookupNode (mkdirp fs ps) p
        = if lookupNode fs p = none ∧ p ∈ ps then some VNode.directory
          else lookupNode fs p := by
  induction ps with
  | nil =>
    intro fs p
    rw [if_neg (by simp)]
    rfl
  | cons q ps2 ih =>
    intro fs p
    have hstep : mkdirp fs (q :: ps2) = mkdirp (addDir fs q) ps2 := rfl
    rw [hstep, ih (addDir fs q) p, addDir_lookup fs q p]
    by_cases h2 : p = q
    · subst h2
      by_cases h1 : lookupNode fs p = none <;> by_cases h3 : p ∈ ps2 <;>
        simp [h1, h3]
    · by_cases h1 : lookupNode fs p = none <;> by_cases h3 : p ∈ ps2 <;>
        simp [h1, h2, h3]

theorem setFile_lookup (fs : FS) (p c : String) (x : String) :
    lookupNode (setFile fs p c) x
      = if x = p then some (VNode.file c) else lookupNode fs x := rfl

end VFS

namespace VFS

/-- Induction invariant for replaying a serialized tree: `done` is the
already-replayed prefix of the well-formed tree `fs` and `g` is the
accumulated rebuild. The root is present, every replayed entry is
present with its exact node, and anything else present in `g` is a
pre-created ancestor directory of `fs`. -/
def ReplayInv (fs done g : FS) : Prop :=
  lookupNode g "/" = some VNode.directory
  ∧ (∀ p n, lookupNode done p = some n → lookupNode g p = some n)
  ∧ (∀ p n, lookupNode g p = some n →
      (p = "/" ∧ n = VNode.directory)
      ∨ lookupNode done p = some n
      ∨ (lookupNode fs p = some VNode.directory ∧ n = VNode.directory))

theorem replayInv_init (fs : FS) : ReplayInv fs [] [("/", VNode.directory)] := by
  refine ⟨by simp [lookupNode], ?_, ?_⟩
  · intro x n hx
    simp [lookupNode] at hx
  · intro x n hx
    by_cases hxr : x = "/"
    · subst hxr
      simp only [lookupNode, if_pos rfl] at hx
      exact Or.inl ⟨rfl, (Option.some.inj hx).symm⟩
    · simp only [lookupNode, if_neg hxr] at hx
      exact absurd hx (by simp)

theorem replayInv_step (fs done todo g : FS) (e : String × VNode)
    (hwf : wellFormed fs) (hsplit : fs = done ++ e :: todo)
    (hInv : ReplayInv fs done g) :
    ReplayInv fs (done ++ [e]) (nodeStep g e) := by
  obtain ⟨hroot, hnodup, hparents⟩ := hwf
  obtain ⟨hg_root, hg_done, hg_shape⟩ := hInv
  rcases e with ⟨p0, n0⟩
  have hmem : (p0, n0) ∈ fs := by
    rw [hsplit]
    simp
  have hlk0 : lookupNode fs p0 = some n0 := mem_lookupNode fs p0 n0 hnodup hmem
  have hdone0 : lookupNode done p0 = none := by
    rw [lookupNode_eq_none_iff]
    intro hin
    rw [hsplit] at hnodup
    have hkeys : keys (done ++ (p0, n0) :: todo) = keys done ++ p0 :: keys todo := by
      simp [keys]
    rw [hkeys, List.nodup_append] at hnodup
    exact hnodup.2.2 hin (by simp)
  have hpar : ∀ q ∈ parentPaths p0, lookupNode fs q = some VNode.directory :=
    fun q hq => hparents (p0, n0) hmem q hq
  cases n0 with
  | file c =>
    have hp0root : p0 ≠ "/" := by
      intro hp
      rw [hp] at hlk0
      rw [hroot] at hlk0
      simp at hlk0
    show ReplayInv fs (done ++ [(p0, VNode.file c)])
      (setFile (mkdirp g (parentPaths p0)) p0 c)
    refine ⟨?_, ?_, ?_⟩
    · rw [setFile_lookup, if_neg (fun h => hp0root h.symm), mkdirp_lookup]
      rw [if_neg (by
        intro hc
        rw [hg_root] at hc
        simp at hc)]
      exact hg_root
    · intro x n hx
      rw [lookupNode_append] at hx
      rcases hld : lookupNode done x with _ | m
      · simp only [hld] at hx
        by_cases hxp : x = p0
        · subst hxp
          simp only [lookupNode, if_pos rfl] at hx
          rw [setFile_lookup, if_pos rfl]
          exact hx
        · simp only [lookupNode, if_neg hxp] at hx
          exact absurd hx (by simp)
      · simp only [hld] at hx
        have hgx : lookupNode g x = some n := by
          refine hg_done x n ?_
          rw [hld]
          exact hx
        have hxp : x ≠ p0 := by
          intro hxp
          rw [hxp, hdone0] at hld
          simp at hld
        rw [setFile_lookup, if_neg hxp, mkdirp_lookup]
        rw [if_neg (by
          intro hc
          rw [hgx] at hc
          simp at hc)]
        exact hgx
    · intro x n hx
      by_cases hxp : x = p0
      · subst hxp
        rw [setFile_lookup, if_pos rfl] at hx
        right
        left
        rw [lookupNode_append]
        simp only [hdone0, lookupNode, if_pos rfl]
        exact hx
      · rw [setFile_lookup, if_neg hxp, mkdirp_lookup] at hx
        by_cases hin : lookupNode g x = none ∧ x ∈ parentPaths p0
        · rw [if_pos hin] at hx
          exact Or.inr (Or.inr ⟨hpar x hin.2, (Option.some.inj hx).symm⟩)
        · rw [if_neg hin] at hx
          rcases hg_shape x n hx with h1 | h1 | h1
          · exact Or.inl h1
          · right
            left
            rw [lookupNode_append]
            simp only [h1]
          · exact Or.inr (Or.inr h1)
  | directory =>
    show ReplayInv fs (done ++ [(p0, VNode.directory)])
      (mkdirp g (parentPaths p0 ++ [p0]))
    refine ⟨?_, ?_, ?_⟩
    · rw [mkdirp_lookup]
      rw [if_neg (by
        intro hc
        rw [hg_root] at hc
        simp at hc)]
      exact hg_root
    · intro x n hx
      rw [lookupNode_append] at hx
      rcases hld : lookupNode done x with _ | m
      · simp only [hld] at hx
        by_cases hxp : x = p0
        · subst hxp
          simp only [lookupNode, if_pos rfl] at hx
          rw [mkdirp_lookup]
          by_cases hgx : lookupNode g x = none
          · rw [if_pos ⟨hgx, by simp⟩]
            exact hx
          · rw [if_neg (fun hc => hgx hc.1)]
            rcases hsome : lookupNode g x with _ | m2
            · exact absurd hsome hgx
            · rcases hg_shape x m2 hsome with h1 | h1 | h1
              · rw [h1.2]
                exact hx
              · rw [hld] at h1
                exact absurd h1 (by simp)
              · rw [h1.2]
                exact hx
        · simp only [lookupNode, if_neg hxp] at hx
          exact absurd hx (by simp)
      · simp only [hld] at hx
        have hgx : lookupNode g x = some n := by
          refine hg_done x n ?_
          rw [hld]
          exact hx
        rw [mkdirp_lookup]
        rw [if_neg (by
          intro hc
          rw [hgx] at hc
          simp at hc)]
        exact hgx
    · intro x n hx
      rw [mkdirp_lookup] at hx
      by_cases hin : lookupNode g x = none ∧ x ∈ parentPaths p0 ++ [p0]
      · rw [if_pos hin] at hx
        have hn : n = VNode.directory := (Option.some.inj hx).symm
        rcases List.mem_append.mp hin.2 with hm | hm
        · exact Or.inr (Or.inr ⟨hpar x hm, hn⟩)
        · have hxp : x = p0 := by simpa using hm
          subst hxp
          exact Or.inr (Or.inr ⟨hlk0, hn⟩)
      · rw [if_neg hin] at hx
        rcases hg_shape x n hx with h1 | h1 | h1
        · exact Or.inl h1
        · right
          left
          rw [lookupNode_append]
          simp only [h1]
        · exact Or.inr (Or.inr h1)

theorem replayInv_foldl (fs : FS) (hwf : wellFormed fs) :
    ∀ (todo done g : FS), fs = done ++ todo → ReplayInv fs done g →
      ReplayInv fs fs (todo.foldl nodeStep g) := by
  intro todo
  induction todo with
  | nil =>
    intro done g hs hI
    rw [List.append_nil] at hs
    rw [List.foldl_nil]
    subst hs
    exact hI
  | cons e t ih =>
    intro done g hs hI
    rw [List.foldl_cons]
    refine ih (done ++ [e]) (nodeStep g e) ?_ (replayInv_step fs done t g e hwf hs hI)
    rw [hs]
    simp

theorem deserialize_serialize_eq_foldl (l : FS) :
    ∀ init : FS,
      (l.map (fun e => (e.1, serializeNode e.2))).foldl deserializeStep init
        = l.foldl nodeStep init := by
  induction l with
  | nil =>
    intro init
    rfl
  | cons e t ih =>
    intro init
    simp only [List.map_cons, List.foldl_cons]
    rw [show deserializeStep init (e.1, serializeNode e.2) = nodeStep init e from by
      rcases e with ⟨p, n⟩
      cases n <;> rfl]
    exact ih (nodeStep init e)

end VFS

/-- Claim C4: for every well-formed tree, deserializing its
serialization reconstructs a tree with the identical set of paths, the
same node type at each path and the same content for each file —
stated as equality of lookup at every path, which is independent of
any directory child ordering. -/
theorem serialize_roundtrip (fs : VFS.FS) (hwf : VFS.wellFormed fs) :
    ∀ p, VFS.lookupNode (VFS.deserialize (VFS.serialize fs)) p = VFS.lookupNode fs p := by
  intro p
  have hfold : VFS.deserialize (VFS.serialize fs)
      = fs.foldl VFS.nodeStep [("/", VFS.VNode.directory)] :=
    VFS.deserialize_serialize_eq_foldl fs _
  rw [hfold]
  obtain ⟨hg_root, hg_done, hg_shape⟩ :=
    VFS.replayInv_foldl fs hwf fs [] [("/", VFS.VNode.directory)]
      (by simp) (VFS.replayInv_init fs)
  rcases h : VFS.lookupNode fs p with _ | n
  · rcases h2 : VFS.lookupNode (fs.foldl VFS.nodeStep [("/", VFS.VNode.directory)]) p
        with _ | m
    · rfl
    · exfalso
      rcases hg_shape p m h2 with h1 | h1 | h1
      · rw [h1.1] at h
        rw [hwf.1] at h
        simp at h
      · rw [h] at h1
        exact absurd h1 (by simp)
      · rw [h1.1] at h
        simp at h
  · exact hg_done p n h

/-- Witness for C4 on a concrete three-node tree. -/
theorem serialize_roundtrip_witness :
    VFS.lookupNode (VFS.deserialize (VFS.serialize
      [("/", VFS.VNode.directory), ("/src", VFS.VNode.directory),
        ("/src/App.jsx", VFS.VNode.file "export default 1")])) "/src/App.jsx"
    = VFS.lookupNode
        [("/", VFS.VNode.directory), ("/src", VFS.VNode.directory),
          ("/src/App.jsx", VFS.VNode.file "export default 1")] "/src/App.jsx" :=
  serialize_roundtrip
    [("/", VFS.VNode.directory), ("/src", VFS.VNode.directory),
      ("/src/App.jsx", VFS.VNode.file "export default 1")]
    (by decide) "/src/App.jsx"
